import Mathlib

/-!
Verification of `insert_citekey_to_note_bib.py` (bibmanager).

Python strings are modelled as `List Char`; Python `dict` (insertion-ordered,
assignment updates in place) as an association list `List (List Char × List Char)`
with `dictSet`.  Fallible Python code (assert / ValueError / IndexError) is
modelled with `Option`.
-/

/-- Characters stripped by Python `str.strip()` (ASCII whitespace). -/
def isPySpace (c : Char) : Bool :=
  c == ' ' || c == '\t' || c == '\n' || c == '\r' || c == '\x0b' || c == '\x0c'

/-- Python `s.lstrip()`. -/
def pyLStrip (s : List Char) : List Char := s.dropWhile isPySpace

/-- Python `s.rstrip()`. -/
def pyRStrip (s : List Char) : List Char := (s.reverse.dropWhile isPySpace).reverse

/-- Python `s.strip()`. -/
def pyStrip (s : List Char) : List Char := pyRStrip (pyLStrip s)

/-- Python `s.lstrip(chars)`: remove the maximal leading run of characters from the set. -/
def pyLStripSet (chars s : List Char) : List Char := s.dropWhile (fun c => chars.contains c)

/-- Python `s.rstrip(chars)`. -/
def pyRStripSet (chars s : List Char) : List Char :=
  (s.reverse.dropWhile (fun c => chars.contains c)).reverse

/-- Python `s.strip(chars)`. -/
def pyStripSet (chars s : List Char) : List Char := pyRStripSet chars (pyLStripSet chars s)

/-- Python `s.split(c)` for a single-character separator `c`. -/
def pySplit (c : Char) : List Char → List (List Char)
  | [] => [[]]
  | x :: xs =>
    let r := pySplit c xs
    if x = c then [] :: r else (x :: r.headD []) :: r.tail

/-- Python `sep.join(parts)` for a single-character separator. -/
def joinSep (c : Char) : List (List Char) → List Char
  | [] => []
  | [x] => x
  | x :: xs => x ++ c :: joinSep c xs

/-- Index of the leftmost occurrence of `t` in `s` (Python `s.find(t)`), if any. -/
def firstMatch (t : List Char) : List Char → Option Nat
  | [] => if t.isPrefixOf ([] : List Char) then some 0 else none
  | x :: xs =>
    if t.isPrefixOf (x :: xs) then some 0
    else (firstMatch t xs).map (· + 1)

/-- The text of `s` strictly before the first occurrence of `t` (all of `s` if none). -/
def upToFirst (t s : List Char) : List Char :=
  match firstMatch t s with
  | none => s
  | some i => s.take i

/-- The text of `s` strictly after the first occurrence of `t`, if `t` occurs. -/
def afterFirst (t s : List Char) : Option (List Char) :=
  (firstMatch t s).map (fun i => s.drop (i + t.length))

/-- Python `s.split(t)[1]` for a (nonempty) string separator `t`:
`none` models the `IndexError` when `t` does not occur in `s`. -/
def pySplitSndSeq (t s : List Char) : Option (List Char) :=
  (afterFirst t s).map (fun r => upToFirst t r)

/-- `BibTexEntry` namedtuple from the source: `(citekey, entry_type, data)` with
`data` an insertion-ordered dictionary. -/
structure BibTexEntry where
  citekey : List Char
  entry_type : List Char
  data : List (List Char × List Char)
deriving DecidableEq, Repr

/-- Python dict assignment `d[k] = v`: update in place when the key is present
(keeping its position), append otherwise. -/
def dictSet (d : List (List Char × List Char)) (k v : List Char) :
    List (List Char × List Char) :=
  if k ∈ d.map Prod.fst then
    d.map (fun p => if p.1 = k then (k, v) else p)
  else d ++ [(k, v)]

/-- Python dict lookup `d[k]` (first binding; bindings are unique in a real dict). -/
def findVal : List (List Char × List Char) → List Char → Option (List Char)
  | [], _ => none
  | p :: d, k => if p.1 = k then some p.2 else findVal d k

/-- The field-collection loop of `convert_str_to_BibTexEntry` from its second
token onward: `field` is the pending field name, `data` the dictionary built so
far.  Mirrors the `for i, element in enumerate(meta_data)` loop for `i ≥ 1`. -/
def collectGo (field : List Char) :
    List (List Char) → List (List Char × List Char) → List (List Char × List Char)
  | [], data => data
  | [last], data => dictSet data field (pyRStrip last)
  | t :: rest, data =>
    let parts := pySplit ',' (pyStrip t)
    let value := joinSep ',' parts.dropLast
    collectGo (parts.getLastD []) rest (dictSet data field value)

/-- The whole field-collection loop over `meta_data`: the first token (stripped)
is the first field name; with fewer than two tokens no field is recorded. -/
def collect : List (List Char) → List (List Char × List Char)
  | [] => []
  | [_] => []
  | t :: rest => collectGo (pyStrip t) rest []

/-- `convert_str_to_BibTexEntry`: decode one raw chunk into a record.
`none` models any raised error (failed assert, `ValueError` from `split('')`,
`IndexError` from a missing second piece). -/
def convert_str_to_BibTexEntry (entry : List Char) : Option BibTexEntry :=
  if ¬ (['@'].isPrefixOf entry) then none
  else if ¬ ('{' ∈ entry) then none
  else
    let entry_type := (pySplit '{' (entry.drop 1)).headD []
    if entry_type = [] then none
    else
      match pySplitSndSeq entry_type (entry.drop 1) with
      | none => none
      | some entry_wo_entry_type =>
        if ¬ (['{'].isPrefixOf entry_wo_entry_type) then none
        else if ¬ (['}'].isSuffixOf entry_wo_entry_type) then none
        else
          let inner := (entry_wo_entry_type.drop 1).dropLast
          let citekey := (pySplit ',' inner).headD []
          let meta_data := pySplit '=' (pyLStripSet [','] (pyLStripSet citekey inner))
          some ⟨citekey, entry_type, collect meta_data⟩

/-- `get_BibTex_file_contents`: the record splitter, processing stripped lines
with accumulators `contents` and `tmp_lines`; the final flush is unconditional. -/
def splitGo : List (List Char) → List (List Char) → List (List Char) → List (List Char)
  | [], contents, tmp => contents ++ [tmp.flatten]
  | l :: ls, contents, tmp =>
    let line := pyStrip l
    if ['%'].isPrefixOf line then splitGo ls contents tmp
    else if line = [] then splitGo ls contents tmp
    else if ['@'].isPrefixOf line then
      if tmp.length > 0 then splitGo ls (contents ++ [tmp.flatten]) [line]
      else splitGo ls contents [line]
    else splitGo ls contents (tmp ++ [line])

/-- `get_BibTex_file_contents` on the list of input lines. -/
def get_BibTex_file_contents (lines : List (List Char)) : List (List Char) :=
  splitGo lines [] []

/-- Decoding every chunk, failing if any single decode fails. -/
def decodeAll : List (List Char) → Option (List BibTexEntry)
  | [] => some []
  | c :: cs =>
    match convert_str_to_BibTexEntry c, decodeAll cs with
    | some e, some es => some (e :: es)
    | _, _ => none

/-- `read_BibTex_file`: split, decode every chunk, then assert that the number
of entries equals the number of distinct citekeys. -/
def read_BibTex_file (lines : List (List Char)) : Option (List BibTexEntry) :=
  match decodeAll (get_BibTex_file_contents lines) with
  | none => none
  | some entries =>
    if entries.length = (entries.map BibTexEntry.citekey).dedup.length then some entries
    else none

/-- `insert_citekey`: add the citekey (with prefix/suffix) to the `note` field,
creating the field when absent, appending a new line inside the quotes otherwise. -/
def insert_citekey (entry : BibTexEntry) (pre suf : List Char) : BibTexEntry :=
  let insert_field := ('n' :: 'o' :: 't' :: 'e' :: [])
  if insert_field ∈ entry.data.map Prod.fst then
    let existing_note := pyStripSet ['\"'] ((findVal entry.data insert_field).getD [])
    let new_note :=
      '\"' :: (existing_note ++ '\n' :: (pre ++ entry.citekey ++ suf) ++ ['\"'])
    ⟨entry.citekey, entry.entry_type, dictSet entry.data insert_field new_note⟩
  else
    let created := '\"' :: (pre ++ entry.citekey ++ suf) ++ ['\"']
    ⟨entry.citekey, entry.entry_type, dictSet entry.data insert_field created⟩

/-- `insert_citekey_to_note`: apply `insert_citekey` to every entry. -/
def insert_citekey_to_note (entries : List BibTexEntry) (pre suf : List Char) :
    List BibTexEntry :=
  entries.map (fun e => insert_citekey e pre suf)

/-- One `field = value,` line of the encoder. -/
def lineOf (p : List Char × List Char) : List Char :=
  p.1 ++ ' ' :: '=' :: ' ' :: (p.2 ++ [','])

/-- `format_BibTexEntry_to_str`: canonical text of one record. -/
def format_BibTexEntry_to_str (entry : BibTexEntry) : List Char :=
  let data_str := joinSep '\n' (entry.data.map lineOf)
  '@' :: (entry.entry_type ++ '{' :: (entry.citekey ++ ',' :: '\n' :: (data_str ++ '\n' :: ['}'])))

/-- `save_as_BibTex_file`: the text written to the output file
(`% itemnum: N` header line, then the chunks joined by newlines, each print
appending a newline). -/
def save_text (entries : List BibTexEntry) : List Char :=
  ("% itemnum: ").toList ++ (Nat.repr entries.length).toList ++ '\n' ::
    (joinSep '\n' (entries.map format_BibTexEntry_to_str) ++ ['\n'])

/-- `main` (after its path checks): read, insert, save; `none` when the run
aborts with an error and no output file is produced. -/
def mainOutput (lines : List (List Char)) (pre suf : List Char) : Option (List Char) :=
  (read_BibTex_file lines).map (fun es => save_text (insert_citekey_to_note es pre suf))

/-- The `note` field name. -/
def noteField : List Char := ('n' :: 'o' :: 't' :: 'e' :: [])

/-- A line is visible to the record splitter when, after stripping, it is
neither a `%`-comment nor empty. -/
def isVisibleLine (l : List Char) : Bool :=
  !(['%'].isPrefixOf (pyStrip l)) && !((pyStrip l).isEmpty)

/-- The field-list text of the grammar of §6: `f = v` lines joined by the
line-final commas (the last line carries no comma), as the splitter would
concatenate them. -/
def fieldText : List (List Char × List Char) → List Char
  | [] => []
  | [(f, v)] => f ++ ' ' :: '=' :: ' ' :: v
  | (f, v) :: rest => f ++ ' ' :: '=' :: ' ' :: (v ++ ',' :: fieldText rest)

/-- Everything of a well-formed grammar chunk after the `@type` header. -/
def chunkTail (k : List Char) (ps : List (List Char × List Char)) : List Char :=
  '{' :: (k ++ ',' :: (fieldText ps ++ ['}']))

/-- A well-formed record text of the grammar of §6, as the raw chunk the
splitter produces for it: `@type{key,` header, `field = value,` lines,
closing `}`, with the line structure concatenated. -/
def grammarChunk (t k : List Char) (ps : List (List Char × List Char)) : List Char :=
  '@' :: (t ++ chunkTail k ps)

/-- Characters allowed in types, keys and field names by the grammar:
no whitespace and none of the structural characters. -/
def plainChar (c : Char) : Bool :=
  !(isPySpace c) && !(c == '@') && !(c == '{') && !(c == '}') && !(c == ',') && !(c == '=')

/-- Characters allowed in field values: anything except `=` (explicit grammar
limitation), braces (no escaping mechanism) and newline (chunks are
concatenations of stripped lines). -/
def valueChar (c : Char) : Bool :=
  !(c == '=') && !(c == '{') && !(c == '}') && !(c == '\n')

/-- Well-formedness of the generators of a grammar chunk (§6): nonempty plain
type, key and field names, `=`-free values. -/
def GrammarOKbase (t k : List Char) (ps : List (List Char × List Char)) : Prop :=
  t ≠ [] ∧ (∀ c ∈ t, plainChar c = true) ∧ k ≠ [] ∧ (∀ c ∈ k, plainChar c = true) ∧
    ∀ p ∈ ps, p.1 ≠ [] ∧ (∀ c ∈ p.1, plainChar c = true) ∧ ∀ c ∈ p.2, valueChar c = true

/-- Full grammar well-formedness: additionally the field names are distinct. -/
def GrammarOK (t k : List Char) (ps : List (List Char × List Char)) : Prop :=
  GrammarOKbase t k ps ∧ (ps.map Prod.fst).Nodup

/-- The decoded form of the field pairs of a grammar chunk: every value loses
its leading whitespace, and the final value instead keeps the space after `=`
and loses trailing whitespace. -/
def normRec : List Char → List Char → List (List Char × List Char) → List (List Char × List Char)
  | f, v, [] => [(f, pyRStrip (' ' :: v))]
  | f, v, (f', v') :: rest => (f, pyLStrip v) :: normRec f' v' rest

/-- `normRec` over a whole pair list. -/
def normPairs : List (List Char × List Char) → List (List Char × List Char)
  | [] => []
  | (f, v) :: rest => normRec f v rest

/-- Folding Python dict assignments over a list of pairs. -/
def foldDict (d : List (List Char × List Char)) (qs : List (List Char × List Char)) :
    List (List Char × List Char) :=
  qs.foldl (fun d p => dictSet d p.1 p.2) d

/-- The `=`-split tokens of the field-list text of a grammar chunk, after the
first: one token per value/next-name seam, and a final value token. -/
def toksTail : List Char → List (List Char × List Char) → List (List Char)
  | v, [] => [' ' :: v]
  | v, (f', v') :: rest => (' ' :: (v ++ ',' :: (f' ++ [' ']))) :: toksTail v' rest

/-- The token list the decoder recovers for a chunk: what the code stores in
`meta_data` (identity on the successful decode path). -/
def metaToks (entry : List Char) : List (List Char) :=
  let entry_type := (pySplit '{' (entry.drop 1)).headD []
  match pySplitSndSeq entry_type (entry.drop 1) with
  | none => []
  | some entry_wo_entry_type =>
    let inner := (entry_wo_entry_type.drop 1).dropLast
    let citekey := (pySplit ',' inner).headD []
    pySplit '=' (pyLStripSet [','] (pyLStripSet citekey inner))

/-- The token-stitching of §4.2 exactly as the spec words it: first token
trimmed is the first field name; each middle token is split on commas, all but
the final comma-delimited piece (comma-rejoined) is the pending field's value
and the final piece the next field name; the last token, trimmed of trailing
whitespace only, is the value of the last field. -/
def specStitch (toks : List (List Char)) : List (List Char × List Char) :=
  match toks with
  | [] => []
  | t0 :: rest =>
    match rest.getLast? with
    | none => []
    | some lastTok =>
      let step := fun (st : (List Char) × List (List Char × List Char)) (tok : List Char) =>
        let parts := pySplit ',' tok
        (parts.getLastD [], dictSet st.2 st.1 (joinSep ',' parts.dropLast))
      let st := rest.dropLast.foldl step (pyStrip t0, ([] : List (List Char × List Char)))
      dictSet st.2 st.1 (pyRStrip lastTok)

/-- The stitching of §4.2 amended so that every middle token is first trimmed
of leading and trailing whitespace (as the code does) before the comma split. -/
def specStitchMid (toks : List (List Char)) : List (List Char × List Char) :=
  match toks with
  | [] => []
  | t0 :: rest =>
    match rest.getLast? with
    | none => []
    | some lastTok =>
      let step := fun (st : (List Char) × List (List Char × List Char)) (tok : List Char) =>
        let parts := pySplit ',' (pyStrip tok)
        (parts.getLastD [], dictSet st.2 st.1 (joinSep ',' parts.dropLast))
      let st := rest.dropLast.foldl step (pyStrip t0, ([] : List (List Char × List Char)))
      dictSet st.2 st.1 (pyRStrip lastTok)


/-! ### Basic lemmas about the string primitives -/

theorem pySplit_ne_nil (c : Char) (s : List Char) : pySplit c s ≠ [] := by
  induction s with
  | nil => simp [pySplit]
  | cons x xs ih =>
    simp only [pySplit]
    split <;> simp

theorem pySplit_append_cons (c : Char) (a b : List Char) :
    pySplit c (a ++ c :: b) = pySplit c a ++ pySplit c b := by
  induction a with
  | nil => simp [pySplit]
  | cons x a ih =>
    by_cases hx : x = c
    · subst hx
      simp [pySplit, ih]
    · cases h : pySplit c a with
      | nil => exact absurd h (pySplit_ne_nil c a)
      | cons h1 t1 =>
        simp [pySplit, if_neg hx, ih, h]

theorem pySplit_no_sep (c : Char) (s : List Char) (h : c ∉ s) : pySplit c s = [s] := by
  induction s with
  | nil => rfl
  | cons x xs ih =>
    have hx : ¬ x = c := fun he => h (he ▸ List.mem_cons_self x xs)
    have hxs : c ∉ xs := fun hm => h (List.mem_cons_of_mem x hm)
    simp [pySplit, if_neg hx, ih hxs]

theorem joinSep_pySplit (c : Char) (s : List Char) : joinSep c (pySplit c s) = s := by
  induction s with
  | nil => rfl
  | cons x xs ih =>
    cases h : pySplit c xs with
    | nil => exact absurd h (pySplit_ne_nil c xs)
    | cons h1 t1 =>
      rw [h] at ih
      by_cases hx : x = c
      · subst hx
        simp only [pySplit, if_pos rfl, h, joinSep]
        exact congrArg (x :: ·) ih
      · cases t1 with
        | nil =>
          simp only [joinSep] at ih
          simp [pySplit, if_neg hx, h, joinSep, ih]
        | cons h2 t2 =>
          simp only [joinSep] at ih
          simp [pySplit, if_neg hx, h, joinSep, ih]

theorem dropWhile_idem_char (p : Char → Bool) (l : List Char) :
    List.dropWhile p (List.dropWhile p l) = List.dropWhile p l := by
  induction l with
  | nil => rfl
  | cons x xs ih =>
    by_cases hx : p x = true
    · simp [List.dropWhile_cons, hx, ih]
    · have hx' : p x = false := by simpa using hx
      simp [List.dropWhile_cons, hx']

theorem pyLStrip_cons_space {c0 : Char} (h : isPySpace c0 = true) (v : List Char) :
    pyLStrip (c0 :: v) = pyLStrip v := by
  simp [pyLStrip, List.dropWhile_cons, h]

theorem pyLStrip_cons_nonspace {c0 : Char} (h : isPySpace c0 = false) (v : List Char) :
    pyLStrip (c0 :: v) = c0 :: v := by
  simp [pyLStrip, List.dropWhile_cons, h]

theorem pyLStrip_append_stop {c0 : Char} (h : isPySpace c0 = false) (v r : List Char) :
    pyLStrip (v ++ c0 :: r) = pyLStrip v ++ c0 :: r := by
  induction v with
  | nil => simp [pyLStrip, List.dropWhile_cons, h]
  | cons x xs ih =>
    by_cases hx : isPySpace x = true
    · simpa [pyLStrip, List.dropWhile_cons, hx] using ih
    · have hx' : isPySpace x = false := by simpa using hx
      simp [pyLStrip, List.dropWhile_cons, hx']

theorem pyLStrip_eq_nil_iff {v : List Char} : pyLStrip v = [] ↔ ∀ c ∈ v, isPySpace c := by
  simp [pyLStrip, List.dropWhile_eq_nil_iff]

theorem pyRStrip_eq_nil_iff {v : List Char} : pyRStrip v = [] ↔ ∀ c ∈ v, isPySpace c := by
  constructor
  · intro h c hc
    have h2 := congrArg List.reverse h
    simp only [pyRStrip, List.reverse_reverse, List.reverse_nil] at h2
    exact (List.dropWhile_eq_nil_iff.mp h2) c (by simpa using hc)
  · intro h
    simp only [pyRStrip]
    rw [List.dropWhile_eq_nil_iff.mpr (fun c hc => h c (by simpa using hc))]
    rfl

theorem pyRStrip_concat_space {c0 : Char} (h : isPySpace c0 = true) (s : List Char) :
    pyRStrip (s ++ [c0]) = pyRStrip s := by
  simp [pyRStrip, List.dropWhile_cons, h]

theorem pyRStrip_concat_nonspace {c0 : Char} (h : isPySpace c0 = false) (s : List Char) :
    pyRStrip (s ++ [c0]) = s ++ [c0] := by
  simp [pyRStrip, List.dropWhile_cons, h]

theorem pyRStrip_cons_of_ne {v : List Char} (h : pyRStrip v ≠ []) (c0 : Char) :
    pyRStrip (c0 :: v) = c0 :: pyRStrip v := by
  have hd : ¬ (v.reverse.dropWhile isPySpace = []) := by
    intro he
    exact h (by simp [pyRStrip, he])
  show ((c0 :: v).reverse.dropWhile isPySpace).reverse = _
  rw [List.reverse_cons, List.dropWhile_append]
  simp only [List.isEmpty_iff, if_neg hd]
  simp [pyRStrip]

theorem pyRStrip_cons_nonspace {c0 : Char} (h : isPySpace c0 = false) (v : List Char) :
    pyRStrip (c0 :: v) = c0 :: pyRStrip v := by
  by_cases hv : pyRStrip v = []
  · have hall : v.reverse.dropWhile isPySpace = [] := by
      have h2 := congrArg List.reverse hv
      simpa [pyRStrip] using h2
    show ((c0 :: v).reverse.dropWhile isPySpace).reverse = _
    rw [List.reverse_cons, List.dropWhile_append]
    simp [hall, List.dropWhile_cons, h, hv]
  · exact pyRStrip_cons_of_ne hv c0

theorem pyRStrip_cons_space_nil {c0 : Char} (h : isPySpace c0 = true) {v : List Char}
    (hv : pyRStrip v = []) : pyRStrip (c0 :: v) = [] := by
  rw [pyRStrip_eq_nil_iff] at hv ⊢
  intro c hc
  rcases List.mem_cons.mp hc with rfl | hc
  · exact h
  · exact hv c hc

theorem pyLStrip_pyRStrip_comm (v : List Char) :
    pyLStrip (pyRStrip v) = pyRStrip (pyLStrip v) := by
  induction v with
  | nil => rfl
  | cons x v ih =>
    by_cases hx : isPySpace x = true
    · rw [pyLStrip_cons_space hx]
      by_cases hv : pyRStrip v = []
      · rw [pyRStrip_cons_space_nil hx hv]
        have hall : ∀ c ∈ v, isPySpace c := pyRStrip_eq_nil_iff.mp hv
        have hl : pyLStrip v = [] := pyLStrip_eq_nil_iff.mpr hall
        rw [hl]
        rfl
      · rw [pyRStrip_cons_of_ne hv, pyLStrip_cons_space hx, ih]
    · have hx' : isPySpace x = false := by simpa using hx
      rw [pyRStrip_cons_nonspace hx', pyLStrip_cons_nonspace hx',
        pyLStrip_cons_nonspace hx', pyRStrip_cons_nonspace hx']

theorem pyLStrip_idem (v : List Char) : pyLStrip (pyLStrip v) = pyLStrip v :=
  dropWhile_idem_char isPySpace v

theorem pyRStrip_idem (v : List Char) : pyRStrip (pyRStrip v) = pyRStrip v := by
  simp only [pyRStrip, List.reverse_reverse]
  rw [dropWhile_idem_char]

theorem pyStrip_pyLStrip (v : List Char) : pyStrip (pyLStrip v) = pyStrip v := by
  simp only [pyStrip, pyLStrip_idem]

theorem pyStrip_pyRStrip (v : List Char) : pyStrip (pyRStrip v) = pyStrip v := by
  simp only [pyStrip]
  rw [pyLStrip_pyRStrip_comm, pyRStrip_idem]

/-! ### Dictionary lemmas -/

theorem dictSet_not_mem {d : List (List Char × List Char)} {k : List Char}
    (h : k ∉ d.map Prod.fst) (v : List Char) : dictSet d k v = d ++ [(k, v)] := by
  simp [dictSet, h]

theorem dictSet_keys (d : List (List Char × List Char)) (k v : List Char) :
    (dictSet d k v).map Prod.fst =
      if k ∈ d.map Prod.fst then d.map Prod.fst else d.map Prod.fst ++ [k] := by
  by_cases h : k ∈ d.map Prod.fst
  · simp only [dictSet, if_pos h, List.map_map]
    refine List.map_congr_left ?_
    intro p _
    by_cases hp : p.1 = k
    · simp [hp]
    · simp [hp]
  · simp [dictSet, h]

theorem findVal_append_ne {k k' : List Char} (h : k' ≠ k)
    (d : List (List Char × List Char)) (v : List Char) :
    findVal (d ++ [(k, v)]) k' = findVal d k' := by
  induction d with
  | nil =>
    simp only [List.nil_append, findVal]
    rw [if_neg (fun he => h he.symm)]
  | cons p d ih =>
    by_cases hp : p.1 = k'
    · simp [findVal, hp]
    · simp only [List.cons_append, findVal, if_neg hp]
      exact ih

theorem findVal_map_update_self (k v : List Char) (d : List (List Char × List Char))
    (h : k ∈ d.map Prod.fst) :
    findVal (d.map (fun p => if p.1 = k then (k, v) else p)) k = some v := by
  induction d with
  | nil => simp at h
  | cons p d ih =>
    by_cases hp : p.1 = k
    · simp [findVal, hp]
    · have h' : k = p.1 ∨ k ∈ d.map Prod.fst := by
        rw [List.map_cons] at h
        exact List.mem_cons.mp h
      have hm : k ∈ d.map Prod.fst := h'.resolve_left (fun he => hp he.symm)
      simp only [List.map_cons, if_neg hp, findVal]
      exact ih hm

theorem findVal_append_self {k : List Char} (v : List Char)
    (d : List (List Char × List Char)) (h : k ∉ d.map Prod.fst) :
    findVal (d ++ [(k, v)]) k = some v := by
  induction d with
  | nil => simp [findVal]
  | cons p d ih =>
    have hp : ¬ p.1 = k := by
      intro he
      apply h
      rw [List.map_cons, he]
      exact List.mem_cons_self k _
    have hm : k ∉ d.map Prod.fst := by
      intro hm
      apply h
      rw [List.map_cons]
      exact List.mem_cons_of_mem _ hm
    simp only [List.cons_append, findVal, if_neg hp]
    exact ih hm

theorem findVal_dictSet_self (d : List (List Char × List Char)) (k v : List Char) :
    findVal (dictSet d k v) k = some v := by
  by_cases h : k ∈ d.map Prod.fst
  · simp only [dictSet, if_pos h]
    exact findVal_map_update_self k v d h
  · simp only [dictSet, if_neg h]
    exact findVal_append_self v d h

theorem findVal_map_update_ne {k k' : List Char} (hne : k' ≠ k) (v : List Char)
    (d : List (List Char × List Char)) :
    findVal (d.map (fun p => if p.1 = k then (k, v) else p)) k' = findVal d k' := by
  induction d with
  | nil => rfl
  | cons p d ih =>
    by_cases hp : p.1 = k
    · have h1 : ¬ ((k, v).1 = k') := by
        intro he
        exact hne (Eq.symm he)
      have h2 : ¬ (p.1 = k') := by
        intro he
        have : k = k' := hp ▸ he
        exact hne this.symm
      simp only [List.map_cons, if_pos hp, findVal]
      rw [if_neg h1, if_neg h2]
      exact ih
    · simp only [List.map_cons, if_neg hp, findVal]
      by_cases hk' : p.1 = k'
      · rw [if_pos hk', if_pos hk']
      · rw [if_neg hk', if_neg hk']
        exact ih

theorem findVal_dictSet_ne {k k' : List Char} (hne : k' ≠ k)
    (d : List (List Char × List Char)) (v : List Char) :
    findVal (dictSet d k v) k' = findVal d k' := by
  by_cases h : k ∈ d.map Prod.fst
  · simp only [dictSet, if_pos h]
    exact findVal_map_update_ne hne v d
  · simp only [dictSet, if_neg h]
    exact findVal_append_ne hne d v

theorem findVal_eq_none_iff (d : List (List Char × List Char)) (k : List Char) :
    findVal d k = none ↔ k ∉ d.map Prod.fst := by
  induction d with
  | nil => simp [findVal]
  | cons p d ih =>
    by_cases hp : p.1 = k
    · rw [List.map_cons, hp]
      simp [findVal, hp]
    · rw [List.map_cons]
      simp only [findVal, if_neg hp, ih, List.mem_cons]
      constructor
      · intro hn h'
        rcases h' with he | hm
        · exact hp he.symm
        · exact hn hm
      · intro hn hm
        exact hn (Or.inr hm)

/-! ### firstMatch lemmas -/

theorem firstMatch_self_append (t r : List Char) (ht : t ≠ []) :
    firstMatch t (t ++ r) = some 0 := by
  cases t with
  | nil => exact absurd rfl ht
  | cons x ts =>
    have hp : (x :: ts).isPrefixOf (x :: ts ++ r) = true := by
      rw [List.isPrefixOf_iff_prefix]
      exact List.prefix_append (x :: ts) r
    simp [firstMatch, hp]

theorem afterFirst_self_append (t r : List Char) (ht : t ≠ []) :
    afterFirst t (t ++ r) = some r := by
  simp [afterFirst, firstMatch_self_append t r ht, List.drop_left]

theorem upToFirst_of_none {t s : List Char} (h : firstMatch t s = none) :
    upToFirst t s = s := by
  simp [upToFirst, h]

/-! ### Character-class helpers -/

theorem plain_nonspace {c : Char} (h : plainChar c = true) : isPySpace c = false := by
  simp only [plainChar, Bool.and_eq_true, Bool.not_eq_true'] at h
  exact h.1.1.1.1.1

theorem plain_ne_comma {c : Char} (h : plainChar c = true) : c ≠ ',' := by
  simp only [plainChar, Bool.and_eq_true, Bool.not_eq_true'] at h
  simpa using h.1.2

theorem plain_ne_lbrace {c : Char} (h : plainChar c = true) : c ≠ '{' := by
  simp only [plainChar, Bool.and_eq_true, Bool.not_eq_true'] at h
  simpa using h.1.1.1.2

theorem plain_ne_eq {c : Char} (h : plainChar c = true) : c ≠ '=' := by
  simp only [plainChar, Bool.and_eq_true, Bool.not_eq_true'] at h
  simpa using h.2

theorem valueChar_ne_eq {c : Char} (h : valueChar c = true) : c ≠ '=' := by
  simp only [valueChar, Bool.and_eq_true, Bool.not_eq_true'] at h
  simpa using h.1.1.1

/-! ### Strip lemmas for token shapes -/

theorem pyRStrip_all_nonspace {f : List Char} (h : ∀ c ∈ f, isPySpace c = false) :
    pyRStrip f = f := by
  rcases List.eq_nil_or_concat f with rfl | ⟨L, b, rfl⟩
  · rfl
  · rw [List.concat_eq_append]
    exact pyRStrip_concat_nonspace (h b (by simp)) L

theorem pyStrip_plain_concat_space {f : List Char} (hne : f ≠ [])
    (hpl : ∀ c ∈ f, plainChar c = true) : pyStrip (f ++ [' ']) = f := by
  cases f with
  | nil => exact absurd rfl hne
  | cons x f' =>
    have hx : isPySpace x = false := plain_nonspace (hpl x (by simp))
    simp only [pyStrip, List.cons_append, pyLStrip_cons_nonspace hx]
    rw [← List.cons_append, pyRStrip_concat_space (show isPySpace ' ' = true by decide)]
    exact pyRStrip_all_nonspace (fun c hc => plain_nonspace (hpl c hc))

theorem pyStrip_seam (v : List Char) {f' : List Char} (hf : f' ≠ [])
    (hpl : ∀ c ∈ f', plainChar c = true) :
    pyStrip (' ' :: (v ++ ',' :: (f' ++ [' ']))) = pyLStrip v ++ ',' :: f' := by
  simp only [pyStrip, pyLStrip_cons_space (show isPySpace ' ' = true by decide)]
  rw [pyLStrip_append_stop (show isPySpace ',' = false by decide)]
  have hshape : pyLStrip v ++ ',' :: (f' ++ [' ']) = (pyLStrip v ++ ',' :: f') ++ [' '] := by
    simp
  rw [hshape, pyRStrip_concat_space (show isPySpace ' ' = true by decide)]
  rcases List.eq_nil_or_concat f' with rfl | ⟨L, b, rfl⟩
  · exact absurd rfl hf
  · rw [List.concat_eq_append]
    have hshape2 : pyLStrip v ++ ',' :: (L ++ [b]) = (pyLStrip v ++ ',' :: L) ++ [b] := by
      simp
    rw [hshape2, pyRStrip_concat_nonspace (plain_nonspace (hpl b (by simp)))]

theorem contains_true_of_mem {c : Char} {l : List Char} (h : c ∈ l) :
    l.contains c = true :=
  List.elem_eq_true_of_mem h

theorem contains_false_of_not_mem {c : Char} {l : List Char} (h : c ∉ l) :
    l.contains c = false := by
  cases hc : l.contains c with
  | false => rfl
  | true => exact absurd (List.elem_iff.mp hc) h

/-! ### The `=`-token structure of a grammar chunk's field list -/

theorem pySplit_prepend (c : Char) (a b : List Char) (h : c ∉ a) :
    pySplit c (a ++ b) = (a ++ (pySplit c b).headD []) :: (pySplit c b).tail := by
  induction a with
  | nil =>
    cases hb : pySplit c b with
    | nil => exact absurd hb (pySplit_ne_nil c b)
    | cons hd tl => simp [hb]
  | cons x a ih =>
    have hx : ¬ x = c := fun he => h (he ▸ List.mem_cons_self x a)
    have ha : c ∉ a := fun hm => h (List.mem_cons_of_mem x hm)
    cases hb : pySplit c b with
    | nil => exact absurd hb (pySplit_ne_nil c b)
    | cons hd tl =>
      have hrec : pySplit c (a ++ b) = (a ++ hd) :: tl := by
        rw [ih ha, hb]
        simp
      simp only [List.cons_append, pySplit, if_neg hx, hrec]
      simp [hrec]

theorem eq_not_mem_last {v : List Char} (hv : ∀ c ∈ v, valueChar c = true) :
    '=' ∉ (' ' :: v) := by
  intro hmem
  rcases List.mem_cons.mp hmem with he | hmem
  · exact absurd he (by decide)
  · exact valueChar_ne_eq (hv _ hmem) rfl

theorem eq_not_mem_pre {v : List Char} (hv : ∀ c ∈ v, valueChar c = true) :
    '=' ∉ (' ' :: (v ++ [','])) := by
  intro hmem
  rcases List.mem_cons.mp hmem with he | hmem
  · exact absurd he (by decide)
  rcases List.mem_append.mp hmem with hv' | hmem
  · exact valueChar_ne_eq (hv _ hv') rfl
  · exact absurd (List.mem_singleton.mp hmem) (by decide)

theorem fieldText_cons_cons (f v : List Char) (p : List Char × List Char)
    (rest : List (List Char × List Char)) :
    fieldText ((f, v) :: p :: rest) =
      f ++ ' ' :: '=' :: ' ' :: (v ++ ',' :: fieldText (p :: rest)) := by
  rfl

theorem pySplit_fieldText :
    ∀ (rest : List (List Char × List Char)) (f v : List Char),
      f ≠ [] → (∀ c ∈ f, plainChar c = true) → (∀ c ∈ v, valueChar c = true) →
      (∀ p ∈ rest, p.1 ≠ [] ∧ (∀ c ∈ p.1, plainChar c = true) ∧
        ∀ c ∈ p.2, valueChar c = true) →
      pySplit '=' (fieldText ((f, v) :: rest)) = (f ++ [' ']) :: toksTail v rest := by
  intro rest
  induction rest with
  | nil =>
    intro f v hf hfpl hv _
    have hshape : fieldText [(f, v)] = (f ++ [' ']) ++ '=' :: (' ' :: v) := by
      simp [fieldText]
    have hnm : '=' ∉ (f ++ [' ']) := by
      intro hmem
      rcases List.mem_append.mp hmem with hf' | hmem
      · exact plain_ne_eq (hfpl _ hf') rfl
      · exact absurd (List.mem_singleton.mp hmem) (by decide)
    rw [hshape, pySplit_append_cons, pySplit_no_sep '=' _ hnm,
      pySplit_no_sep '=' _ (eq_not_mem_last hv)]
    rfl
  | cons p rest ih =>
    intro f v hf hfpl hv hps
    obtain ⟨f', v'⟩ := p
    have hf'ne : f' ≠ [] := (hps (f', v') (List.mem_cons_self _ _)).1
    have hf'pl : ∀ c ∈ f', plainChar c = true := (hps (f', v') (List.mem_cons_self _ _)).2.1
    have hv' : ∀ c ∈ v', valueChar c = true := (hps (f', v') (List.mem_cons_self _ _)).2.2
    have hrest : ∀ q ∈ rest, q.1 ≠ [] ∧ (∀ c ∈ q.1, plainChar c = true) ∧
        ∀ c ∈ q.2, valueChar c = true :=
      fun q hq => hps q (List.mem_cons_of_mem _ hq)
    have hnm : '=' ∉ (f ++ [' ']) := by
      intro hmem
      rcases List.mem_append.mp hmem with hf1 | hmem
      · exact plain_ne_eq (hfpl _ hf1) rfl
      · exact absurd (List.mem_singleton.mp hmem) (by decide)
    have hshape :
        fieldText ((f, v) :: (f', v') :: rest) =
          (f ++ [' ']) ++ '=' ::
            ((' ' :: (v ++ [','])) ++ fieldText ((f', v') :: rest)) := by
      rw [fieldText_cons_cons]
      simp
    rw [hshape, pySplit_append_cons, pySplit_no_sep '=' _ hnm,
      pySplit_prepend '=' _ _ (eq_not_mem_pre hv), ih f' v' hf'ne hf'pl hv' hrest]
    simp [toksTail]

theorem toksTail_ne_nil (v : List Char) (rest : List (List Char × List Char)) :
    toksTail v rest ≠ [] := by
  cases rest <;> simp [toksTail]

theorem collectGo_toksTail :
    ∀ (rest : List (List Char × List Char)) (v field : List Char)
      (data : List (List Char × List Char)),
      (∀ p ∈ rest, p.1 ≠ [] ∧ (∀ c ∈ p.1, plainChar c = true) ∧
        ∀ c ∈ p.2, valueChar c = true) →
      collectGo field (toksTail v rest) data = foldDict data (normRec field v rest) := by
  intro rest
  induction rest with
  | nil =>
    intro v field data _
    simp [toksTail, collectGo, normRec, foldDict]
  | cons p rest ih =>
    intro v field data hps
    obtain ⟨f', v'⟩ := p
    have hf'ne : f' ≠ [] := (hps (f', v') (List.mem_cons_self _ _)).1
    have hf'pl : ∀ c ∈ f', plainChar c = true := (hps (f', v') (List.mem_cons_self _ _)).2.1
    have hcomma : ',' ∉ f' := fun hm => plain_ne_comma (hf'pl _ hm) rfl
    have hrest : ∀ q ∈ rest, q.1 ≠ [] ∧ (∀ c ∈ q.1, plainChar c = true) ∧
        ∀ c ∈ q.2, valueChar c = true :=
      fun q hq => hps q (List.mem_cons_of_mem _ hq)
    cases hshape : toksTail v' rest with
    | nil => exact absurd hshape (toksTail_ne_nil v' rest)
    | cons a as =>
      have hparts : pySplit ',' (pyStrip (' ' :: (v ++ ',' :: (f' ++ [' '])))) =
          pySplit ',' (pyLStrip v) ++ [f'] := by
        rw [pyStrip_seam v hf'ne hf'pl, pySplit_append_cons, pySplit_no_sep ',' f' hcomma]
      simp only [toksTail, hshape, collectGo, hparts]
      rw [List.dropLast_concat, List.getLastD_concat, joinSep_pySplit, ← hshape,
        ih v' f' (dictSet data field (pyLStrip v)) hrest]
      simp [normRec, foldDict]

theorem collect_grammarToks (f v : List Char) (rest : List (List Char × List Char))
    (hf : f ≠ []) (hfpl : ∀ c ∈ f, plainChar c = true)
    (hrest : ∀ p ∈ rest, p.1 ≠ [] ∧ (∀ c ∈ p.1, plainChar c = true) ∧
      ∀ c ∈ p.2, valueChar c = true) :
    collect ((f ++ [' ']) :: toksTail v rest) = foldDict [] (normRec f v rest) := by
  cases hshape : toksTail v rest with
  | nil => exact absurd hshape (toksTail_ne_nil v rest)
  | cons a as =>
    simp only [collect]
    rw [pyStrip_plain_concat_space hf hfpl, ← hshape, collectGo_toksTail rest v f [] hrest]

theorem fieldText_head_cons (c0 : Char) (f2 v : List Char)
    (rest : List (List Char × List Char)) :
    ∃ w, fieldText ((c0 :: f2, v) :: rest) = c0 :: w := by
  cases rest with
  | nil => exact ⟨_, rfl⟩
  | cons q qs => exact ⟨_, rfl⟩

theorem convert_grammarChunk (t k : List Char) (ps : List (List Char × List Char))
    (hb : GrammarOKbase t k ps) (hFM : firstMatch t (chunkTail k ps) = none) :
    convert_str_to_BibTexEntry (grammarChunk t k ps) =
      some ⟨k, t, foldDict [] (normPairs ps)⟩ := by
  obtain ⟨ht, htpl, hk, hkpl, hps⟩ := hb
  have hguard1 : (['@'].isPrefixOf (grammarChunk t k ps)) = true := by
    simp [grammarChunk, List.isPrefixOf]
  have hguard2 : '{' ∈ grammarChunk t k ps := by
    simp [grammarChunk, chunkTail]
  have hdrop : (grammarChunk t k ps).drop 1 = t ++ chunkTail k ps := rfl
  have hlb : '{' ∉ t := fun hm => plain_ne_lbrace (htpl _ hm) rfl
  have htype : (pySplit '{' (t ++ chunkTail k ps)).headD [] = t := by
    show (pySplit '{' (t ++ '{' :: (k ++ ',' :: (fieldText ps ++ ['}'])))).headD [] = t
    rw [pySplit_append_cons, pySplit_no_sep '{' t hlb]
    simp
  have hsnd : pySplitSndSeq t (t ++ chunkTail k ps) = some (chunkTail k ps) := by
    simp [pySplitSndSeq, afterFirst_self_append t _ ht, upToFirst_of_none hFM]
  have hpre : (['{'].isPrefixOf (chunkTail k ps)) = true := by
    simp [chunkTail, List.isPrefixOf]
  have hsuf : (['}'].isSuffixOf (chunkTail k ps)) = true := by
    rw [List.isSuffixOf_iff_suffix]
    show ['}'] <:+ '{' :: (k ++ ',' :: (fieldText ps ++ ['}']))
    have hsh : '{' :: (k ++ ',' :: (fieldText ps ++ ['}'])) =
        ('{' :: (k ++ ',' :: fieldText ps)) ++ ['}'] := by
      simp
    rw [hsh]
    exact List.suffix_append _ _
  have hinner : ((chunkTail k ps).drop 1).dropLast = k ++ ',' :: fieldText ps := by
    show (k ++ ',' :: (fieldText ps ++ ['}'])).dropLast = _
    have hsh : k ++ ',' :: (fieldText ps ++ ['}']) = (k ++ ',' :: fieldText ps) ++ ['}'] := by
      simp
    rw [hsh, List.dropLast_concat]
  have hkc : ',' ∉ k := fun hm => plain_ne_comma (hkpl _ hm) rfl
  have hkey : (pySplit ',' (k ++ ',' :: fieldText ps)).headD [] = k := by
    rw [pySplit_append_cons, pySplit_no_sep ',' k hkc]
    simp
  have hstrip1 : pyLStripSet k (k ++ ',' :: fieldText ps) = ',' :: fieldText ps := by
    show List.dropWhile _ (k ++ ',' :: fieldText ps) = _
    rw [List.dropWhile_append_of_pos (fun c hc => contains_true_of_mem hc),
      List.dropWhile_cons, contains_false_of_not_mem hkc]
    simp
  have hstrip2 : pyLStripSet [','] (',' :: fieldText ps) = fieldText ps := by
    show List.dropWhile _ (',' :: fieldText ps) = _
    rw [List.dropWhile_cons]
    rw [show (([','] : List Char).contains ',') = true from by decide]
    simp only [if_true]
    cases ps with
    | nil => simp [fieldText]
    | cons p rest =>
      obtain ⟨f, v⟩ := p
      have hfne : f ≠ [] := (hps (f, v) (List.mem_cons_self _ _)).1
      have hfpl : ∀ c ∈ f, plainChar c = true := (hps (f, v) (List.mem_cons_self _ _)).2.1
      cases f with
      | nil => exact absurd rfl hfne
      | cons c0 f2 =>
        have hc0 : c0 ≠ ',' := plain_ne_comma (hfpl c0 (List.mem_cons_self _ _))
        obtain ⟨w, hw⟩ := fieldText_head_cons c0 f2 v rest
        rw [hw, List.dropWhile_cons,
          show (([','] : List Char).contains c0) = false from
            contains_false_of_not_mem (by simp [hc0])]
        simp
  simp only [convert_str_to_BibTexEntry, hdrop, htype, hsnd, hinner, hkey, hstrip1, hstrip2]
  simp only [hguard1, hguard2, hpre, hsuf, not_true_eq_false, if_false,
    if_neg (show ¬ (t = []) from ht)]
  cases ps with
  | nil =>
    simp [fieldText, pySplit, collect, normPairs, foldDict]
  | cons p rest =>
    obtain ⟨f, v⟩ := p
    have hfne : f ≠ [] := (hps (f, v) (List.mem_cons_self _ _)).1
    have hfpl : ∀ c ∈ f, plainChar c = true := (hps (f, v) (List.mem_cons_self _ _)).2.1
    have hv : ∀ c ∈ v, valueChar c = true := (hps (f, v) (List.mem_cons_self _ _)).2.2
    have hrest : ∀ q ∈ rest, q.1 ≠ [] ∧ (∀ c ∈ q.1, plainChar c = true) ∧
        ∀ c ∈ q.2, valueChar c = true :=
      fun q hq => hps q (List.mem_cons_of_mem _ hq)
    rw [pySplit_fieldText rest f v hfne hfpl hv hrest,
      collect_grammarToks f v rest hfne hfpl hrest]
    rfl

/-! ### Properties of the normalised pair list and dictionary folds -/

theorem pyStrip_cons_space {c0 : Char} (h : isPySpace c0 = true) (v : List Char) :
    pyStrip (c0 :: v) = pyStrip v := by
  simp [pyStrip, pyLStrip_cons_space h]

theorem normRec_map_fst (f v : List Char) (rest : List (List Char × List Char)) :
    (normRec f v rest).map Prod.fst = f :: rest.map Prod.fst := by
  induction rest generalizing f v with
  | nil => simp [normRec]
  | cons p rest ih =>
    obtain ⟨f', v'⟩ := p
    simp [normRec, ih]

theorem normPairs_map_fst (ps : List (List Char × List Char)) :
    (normPairs ps).map Prod.fst = ps.map Prod.fst := by
  cases ps with
  | nil => rfl
  | cons p rest =>
    obtain ⟨f, v⟩ := p
    simp [normPairs, normRec_map_fst]

theorem normRec_forall₂ (f v : List Char) (rest : List (List Char × List Char)) :
    List.Forall₂ (fun a b => a.1 = b.1 ∧ pyStrip a.2 = pyStrip b.2)
      (normRec f v rest) ((f, v) :: rest) := by
  induction rest generalizing f v with
  | nil =>
    refine List.Forall₂.cons ⟨rfl, ?_⟩ List.Forall₂.nil
    rw [pyStrip_pyRStrip, pyStrip_cons_space (by decide)]
  | cons p rest ih =>
    obtain ⟨f', v'⟩ := p
    exact List.Forall₂.cons ⟨rfl, pyStrip_pyLStrip v⟩ (ih f' v')

theorem normPairs_forall₂ (ps : List (List Char × List Char)) :
    List.Forall₂ (fun a b => a.1 = b.1 ∧ pyStrip a.2 = pyStrip b.2) (normPairs ps) ps := by
  cases ps with
  | nil => exact List.Forall₂.nil
  | cons p rest =>
    obtain ⟨f, v⟩ := p
    exact normRec_forall₂ f v rest

theorem foldDict_append (qs : List (List Char × List Char)) :
    ∀ d : List (List Char × List Char),
      (∀ n ∈ qs.map Prod.fst, n ∉ d.map Prod.fst) → (qs.map Prod.fst).Nodup →
      foldDict d qs = d ++ qs := by
  induction qs with
  | nil =>
    intro d _ _
    simp [foldDict]
  | cons q qs ih =>
    intro d hdis hnd
    obtain ⟨kq, vq⟩ := q
    have hk : kq ∉ d.map Prod.fst := hdis kq (by simp)
    have hstep : dictSet d kq vq = d ++ [(kq, vq)] := dictSet_not_mem hk vq
    have hnd' : (qs.map Prod.fst).Nodup := by
      rw [List.map_cons] at hnd
      exact hnd.of_cons
    have hkq : kq ∉ qs.map Prod.fst := by
      rw [List.map_cons] at hnd
      exact (List.nodup_cons.mp hnd).1
    have hdis' : ∀ n ∈ qs.map Prod.fst, n ∉ (d ++ [(kq, vq)]).map Prod.fst := by
      intro n hn hmem
      rw [List.map_append] at hmem
      rcases List.mem_append.mp hmem with hmd | hmk
      · exact hdis n (by simp [hn]) hmd
      · have : n = kq := by simpa using hmk
        exact hkq (this ▸ hn)
    show foldDict (dictSet d kq vq) qs = d ++ (kq, vq) :: qs
    rw [hstep, ih (d ++ [(kq, vq)]) hdis' hnd']
    simp

theorem foldDict_of_nodup (qs : List (List Char × List Char))
    (h : (qs.map Prod.fst).Nodup) : foldDict [] qs = qs := by
  have := foldDict_append qs [] (by simp) h
  simpa using this

theorem foldDict_keys_nodup (qs : List (List Char × List Char)) :
    ∀ d : List (List Char × List Char), (d.map Prod.fst).Nodup →
      ((foldDict d qs).map Prod.fst).Nodup := by
  induction qs with
  | nil =>
    intro d hd
    simpa [foldDict] using hd
  | cons q qs ih =>
    intro d hd
    obtain ⟨kq, vq⟩ := q
    show ((foldDict (dictSet d kq vq) qs).map Prod.fst).Nodup
    apply ih
    rw [dictSet_keys]
    by_cases hm : kq ∈ d.map Prod.fst
    · simpa [hm] using hd
    · rw [if_neg hm]
      rw [List.nodup_append]
      refine ⟨hd, List.nodup_singleton kq, ?_⟩
      intro a ha hb
      have hab : a = kq := by simpa using hb
      exact hm (hab ▸ ha)

theorem getLast?_cons_of_ne_nil {α : Type _} {l : List α} (h : l ≠ []) (a : α) :
    (a :: l).getLast? = l.getLast? := by
  cases l with
  | nil => exact absurd rfl h
  | cons b bs => simp

theorem findVal_foldDict (qs : List (List Char × List Char)) (n : List Char) :
    ∀ d : List (List Char × List Char),
      findVal (foldDict d qs) n =
        match (qs.filter (fun p => p.1 = n)).getLast? with
        | some q => some q.2
        | none => findVal d n := by
  induction qs with
  | nil =>
    intro d
    simp [foldDict, List.filter_nil]
  | cons q qs ih =>
    intro d
    obtain ⟨kq, vq⟩ := q
    show findVal (foldDict (dictSet d kq vq) qs) n = _
    rw [ih (dictSet d kq vq), List.filter_cons]
    by_cases hk : kq = n
    · subst hk
      have hcond : (decide ((kq, vq).1 = kq)) = true := by simp
      rw [hcond]
      simp only [if_true]
      cases hl : (qs.filter (fun p => p.1 = kq)).getLast? with
      | some q' =>
        have hne : qs.filter (fun p => p.1 = kq) ≠ [] := by
          intro he
          rw [he] at hl
          cases hl
        rw [getLast?_cons_of_ne_nil hne, hl]
      | none =>
        have hnil : qs.filter (fun p => p.1 = kq) = [] := List.getLast?_eq_none_iff.mp hl
        rw [hnil]
        simp [findVal_dictSet_self]
    · have hcond : (decide ((kq, vq).1 = n)) = false := by simp [hk]
      rw [hcond]
      simp only [Bool.false_eq_true, if_false]
      cases hl : (qs.filter (fun p => p.1 = n)).getLast? with
      | some q' => rfl
      | none => exact findVal_dictSet_ne (fun he => hk he.symm) d vq

theorem forall₂_filter {R : (List Char × List Char) → (List Char × List Char) → Prop}
    {p : (List Char × List Char) → Bool} (hp : ∀ a b, R a b → p a = p b) :
    ∀ {l₁ l₂ : List (List Char × List Char)}, List.Forall₂ R l₁ l₂ →
      List.Forall₂ R (l₁.filter p) (l₂.filter p) := by
  intro l₁ l₂ h
  induction h with
  | nil => exact List.Forall₂.nil
  | cons hab hrest ih =>
    rw [List.filter_cons, List.filter_cons]
    rename_i a b l₁' l₂'
    cases hpa : p a with
    | true =>
      rw [hp a b hab] at hpa
      simp only [hpa, if_true]
      exact List.Forall₂.cons hab ih
    | false =>
      rw [hp a b hab] at hpa
      simp only [hpa, if_false]
      exact ih

theorem forall₂_getLast? {R : (List Char × List Char) → (List Char × List Char) → Prop} :
    ∀ {l₁ l₂ : List (List Char × List Char)}, List.Forall₂ R l₁ l₂ →
      (l₁.getLast? = none ∧ l₂.getLast? = none) ∨
        ∃ a b, l₁.getLast? = some a ∧ l₂.getLast? = some b ∧ R a b := by
  intro l₁ l₂ h
  induction h with
  | nil => exact Or.inl ⟨rfl, rfl⟩
  | cons hab hrest ih =>
    rename_i a b l₁' l₂'
    rcases ih with ⟨h1, h2⟩ | ⟨a', b', h1, h2, hr⟩
    · have e1 : l₁' = [] := List.getLast?_eq_none_iff.mp h1
      have e2 : l₂' = [] := List.getLast?_eq_none_iff.mp h2
      subst e1
      subst e2
      exact Or.inr ⟨a, b, rfl, rfl, hab⟩
    · refine Or.inr ⟨a', b', ?_, ?_, hr⟩
      · rw [List.getLast?_cons, h1]
        rfl
      · rw [List.getLast?_cons, h2]
        rfl

/-! ### Claim C1: round-trip -/

/-- Claim C1, counterexample: the chunk `@t{k,title = v}` is well-formed under
the grammar of §6, yet decoding raises an error (the code removes the type by
`entry[1:].split(entry_type)[1]`, and the type `t` re-occurs inside `title`),
so `format_BibTexEntry_to_str (convert_str_to_BibTexEntry T)` is not defined,
let alone semantically equivalent to `T`. -/
theorem roundtrip_claim_counterexample :
    GrammarOK (("t").toList) (("k").toList) [((("title").toList), (("v").toList))] ∧
      convert_str_to_BibTexEntry
        (grammarChunk (("t").toList) (("k").toList)
          [((("title").toList), (("v").toList))]) = none := by
  constructor
  · constructor
    · refine ⟨by decide, by decide, by decide, by decide, ?_⟩
      intro p hp
      rcases List.mem_singleton.mp hp with rfl
      exact ⟨by decide, by decide, by decide⟩
    · decide
  · decide

/-- Claim C1, amended: for a chunk that is well-formed under the grammar of §6
and whose type string occurs nowhere in the chunk after the header, decoding
succeeds and re-encoding yields the canonical text of a record with the same
type, the same citekey, the same field names in the same order, and field
values equal up to whitespace normalisation. -/
theorem roundtrip_amended (t k : List Char) (ps : List (List Char × List Char))
    (hOK : GrammarOK t k ps) (hFM : firstMatch t (chunkTail k ps) = none) :
    ∃ r, convert_str_to_BibTexEntry (grammarChunk t k ps) = some r ∧
      r.entry_type = t ∧ r.citekey = k ∧
      ∃ qs, format_BibTexEntry_to_str r = format_BibTexEntry_to_str ⟨k, t, qs⟩ ∧
        qs.map Prod.fst = ps.map Prod.fst ∧
        List.Forall₂ (fun a b => pyStrip a.2 = pyStrip b.2) qs ps := by
  obtain ⟨hb, hnd⟩ := hOK
  have hnp : (normPairs ps).map Prod.fst = ps.map Prod.fst := normPairs_map_fst ps
  have hform := convert_grammarChunk t k ps hb hFM
  rw [foldDict_of_nodup (normPairs ps) (by rw [hnp]; exact hnd)] at hform
  refine ⟨⟨k, t, normPairs ps⟩, hform, rfl, rfl, normPairs ps, rfl, hnp, ?_⟩
  exact List.Forall₂.imp (fun a b hab => hab.2) (normPairs_forall₂ ps)

/-- Claim C1, witness: the amended round-trip at the concrete chunk
`@z{k,ti = v1,yr = v 2}`. -/
theorem roundtrip_amended_witness :
    GrammarOK (("z").toList) (("k").toList)
        [((("ti").toList), (("v1").toList)), ((("yr").toList), (("v 2").toList))] ∧
      firstMatch (("z").toList)
        (chunkTail (("k").toList)
          [((("ti").toList), (("v1").toList)), ((("yr").toList), (("v 2").toList))]) = none ∧
      ∃ r, convert_str_to_BibTexEntry
          (grammarChunk (("z").toList) (("k").toList)
            [((("ti").toList), (("v1").toList)), ((("yr").toList), (("v 2").toList))]) =
            some r ∧
        r.entry_type = ("z").toList ∧ r.citekey = ("k").toList ∧
        ∃ qs, format_BibTexEntry_to_str r =
            format_BibTexEntry_to_str ⟨("k").toList, ("z").toList, qs⟩ ∧
          qs.map Prod.fst =
            [((("ti").toList), (("v1").toList)), ((("yr").toList), (("v 2").toList))].map
              Prod.fst ∧
          List.Forall₂ (fun a b => pyStrip a.2 = pyStrip b.2) qs
            [((("ti").toList), (("v1").toList)), ((("yr").toList), (("v 2").toList))] := by
  refine ⟨?_, by decide, roundtrip_amended _ _ _ ?_ (by decide)⟩
  · constructor
    · refine ⟨by decide, by decide, by decide, by decide, ?_⟩
      intro p hp
      rcases List.mem_cons.mp hp with rfl | hp
      · exact ⟨by decide, by decide, by decide⟩
      rcases List.mem_singleton.mp hp with rfl
      exact ⟨by decide, by decide, by decide⟩
    · decide
  · constructor
    · refine ⟨by decide, by decide, by decide, by decide, ?_⟩
      intro p hp
      rcases List.mem_cons.mp hp with rfl | hp
      · exact ⟨by decide, by decide, by decide⟩
      rcases List.mem_singleton.mp hp with rfl
      exact ⟨by decide, by decide, by decide⟩
    · decide

/-! ### Claim C2: decode failure conditions -/

/-- Claim C2, counterexample: the chunk `@aa{aa}` satisfies all four stated
preconditions (starts with `@`, contains `{`, the type `aa` is nonempty, and
the chunk with the leading `@aa` removed is `{aa}`, which starts with `{` and
ends with `}`), yet decode raises an error: `entry[1:].split('aa')[1]` is `{`,
which does not end with `}`. -/
theorem decode_preconditions_counterexample :
    (['@'].isPrefixOf (("@aa\x7baa\x7d").toList)) = true ∧
      '{' ∈ ("@aa\x7baa\x7d").toList ∧
      (pySplit '{' (("@aa\x7baa\x7d").toList.drop 1)).headD [] ≠ [] ∧
      (['{'].isPrefixOf
        (("@aa\x7baa\x7d").toList.drop
          (1 + ((pySplit '{' (("@aa\x7baa\x7d").toList.drop 1)).headD []).length))) = true ∧
      (['}'].isSuffixOf
        (("@aa\x7baa\x7d").toList.drop
          (1 + ((pySplit '{' (("@aa\x7baa\x7d").toList.drop 1)).headD []).length))) = true ∧
      convert_str_to_BibTexEntry (("@aa\x7baa\x7d").toList) = none := by
  decide

/-- Claim C2, amended: decode fails exactly when the chunk does not start with
`@`, or contains no `{`, or the type (the text between `@` and the first `{`)
is empty, or the segment the code actually brace-checks — the text of the
chunk after `@` strictly between the first and second occurrences of the type
string (the whole remainder when the type occurs only once) — does not both
start with `{` and end with `}`. -/
theorem decode_failure_iff (c : List Char) :
    convert_str_to_BibTexEntry c = none ↔
      ¬ (['@'].isPrefixOf c) = true ∨ '{' ∉ c ∨
        (pySplit '{' (c.drop 1)).headD [] = [] ∨
        ¬ ((['{'].isPrefixOf
              ((pySplitSndSeq ((pySplit '{' (c.drop 1)).headD []) (c.drop 1)).getD [])) = true ∧
           (['}'].isSuffixOf
              ((pySplitSndSeq ((pySplit '{' (c.drop 1)).headD []) (c.drop 1)).getD [])) = true) := by
  simp only [convert_str_to_BibTexEntry]
  by_cases h1 : ['@'].isPrefixOf c = true
  case neg =>
    rw [if_pos h1]
    exact iff_of_true rfl (Or.inl h1)
  case pos =>
  rw [if_neg (not_not_intro h1)]
  by_cases h2 : '{' ∈ c
  case neg =>
    rw [if_pos h2]
    exact iff_of_true rfl (Or.inr (Or.inl h2))
  case pos =>
  rw [if_neg (not_not_intro h2)]
  by_cases h3 : (pySplit '{' (c.drop 1)).headD [] = []
  case pos =>
    rw [if_pos h3]
    exact iff_of_true rfl (Or.inr (Or.inr (Or.inl h3)))
  case neg =>
  rw [if_neg h3]
  cases hm : pySplitSndSeq ((pySplit '{' (c.drop 1)).headD []) (c.drop 1) with
  | none =>
    exact iff_of_true rfl (Or.inr (Or.inr (Or.inr (by decide))))
  | some ewt =>
    simp only []
    by_cases h4 : ['{'].isPrefixOf ewt = true
    case neg =>
      rw [if_pos (by simpa using h4)]
      refine iff_of_true rfl (Or.inr (Or.inr (Or.inr ?_)))
      intro hab
      exact h4 hab.1
    case pos =>
    rw [if_neg (by simpa using not_not_intro h4)]
    by_cases h5 : ['}'].isSuffixOf ewt = true
    case neg =>
      rw [if_pos (by simpa using h5)]
      refine iff_of_true rfl (Or.inr (Or.inr (Or.inr ?_)))
      intro hab
      exact h5 hab.2
    case pos =>
    rw [if_neg (by simpa using not_not_intro h5)]
    refine iff_of_false (by simp) ?_
    intro hdisj
    rcases hdisj with h | h | h | h
    · exact h h1
    · exact h h2
    · exact h3 h
    · exact h ⟨h4, h5⟩

/-! ### Claim C3: field-list token stitching -/

theorem getLastD_irrel {α : Type _} {l : List α} (h : l ≠ []) (d₁ d₂ : α) :
    l.getLastD d₁ = l.getLastD d₂ := by
  cases hl : l.getLast? with
  | none => exact absurd (List.getLast?_eq_none_iff.mp hl) h
  | some a => simp [List.getLastD_eq_getLast?, hl]

theorem collectGo_foldl_form :
    ∀ (rest : List (List Char)) (field : List Char)
      (data : List (List Char × List Char)), rest ≠ [] →
      collectGo field rest data =
        (let st := rest.dropLast.foldl
          (fun (st : (List Char) × List (List Char × List Char)) (tok : List Char) =>
            let parts := pySplit ',' (pyStrip tok)
            (parts.getLastD [], dictSet st.2 st.1 (joinSep ',' parts.dropLast)))
          (field, data)
         dictSet st.2 st.1 (pyRStrip (rest.getLastD []))) := by
  intro rest
  induction rest with
  | nil => intro field data h; exact absurd rfl h
  | cons t rest ih =>
    intro field data _
    cases rest with
    | nil => simp [collectGo]
    | cons t2 rest2 =>
      have hne : t2 :: rest2 ≠ [] := by simp
      simp only [collectGo]
      rw [ih _ _ hne]
      have hdl : (t :: t2 :: rest2).dropLast = t :: (t2 :: rest2).dropLast := by
        simp
      rw [hdl, List.foldl_cons]
      have hgl : (t :: t2 :: rest2).getLastD [] = (t2 :: rest2).getLastD [] := by
        rw [List.getLastD_cons]
        exact getLastD_irrel hne t []
      rw [hgl]

theorem specStitchMid_eq_collect (toks : List (List Char)) :
    specStitchMid toks = collect toks := by
  cases toks with
  | nil => rfl
  | cons t0 rest =>
    cases rest with
    | nil => rfl
    | cons t1 rest1 =>
      have hne : t1 :: rest1 ≠ [] := by simp
      cases hl : (t1 :: rest1).getLast? with
      | none => exact absurd (List.getLast?_eq_none_iff.mp hl) hne
      | some lastTok =>
        show specStitchMid (t0 :: t1 :: rest1) = collectGo (pyStrip t0) (t1 :: rest1) []
        rw [collectGo_foldl_form (t1 :: rest1) (pyStrip t0) [] hne]
        simp only [specStitchMid, hl]
        have hgl : (t1 :: rest1).getLastD [] = lastTok := by
          simp [List.getLastD_eq_getLast?, hl]
        rw [hgl]

theorem metaToks_of_convert {c : List Char} {r : BibTexEntry}
    (h : convert_str_to_BibTexEntry c = some r) : r.data = collect (metaToks c) := by
  simp only [convert_str_to_BibTexEntry] at h
  by_cases h1 : ['@'].isPrefixOf c = true
  case neg => rw [if_pos h1] at h; cases h
  case pos =>
  rw [if_neg (not_not_intro h1)] at h
  by_cases h2 : '{' ∈ c
  case neg => rw [if_pos h2] at h; cases h
  case pos =>
  rw [if_neg (not_not_intro h2)] at h
  by_cases h3 : (pySplit '{' (c.drop 1)).headD [] = []
  case pos => rw [if_pos h3] at h; cases h
  case neg =>
  rw [if_neg h3] at h
  cases hm : pySplitSndSeq ((pySplit '{' (c.drop 1)).headD []) (c.drop 1) with
  | none => rw [hm] at h; cases h
  | some ewt =>
    rw [hm] at h
    simp only [] at h
    by_cases h4 : ['{'].isPrefixOf ewt = true
    case neg => rw [if_pos (by simpa using h4)] at h; cases h
    case pos =>
    rw [if_neg (by simpa using not_not_intro h4)] at h
    by_cases h5 : ['}'].isSuffixOf ewt = true
    case neg => rw [if_pos (by simpa using h5)] at h; cases h
    case pos =>
    rw [if_neg (by simpa using not_not_intro h5)] at h
    have hr := (Option.some_inj.mp h).symm
    rw [hr]
    simp only [metaToks, hm]

/-- Claim C3, counterexample: on the chunk `@a{k,x = 1 , y = 2}` decode
succeeds and yields the fields `x ↦ "1 "` and `" y" ↦ " 2"` (middle tokens are
stripped of surrounding whitespace before the comma split), while the
stitching exactly as the spec words it (no trimming of middle tokens) yields
`x ↦ " 1 "` and `" y " ↦ " 2"` — a different map. -/
theorem stitch_literal_counterexample :
    convert_str_to_BibTexEntry (("@a\x7bk,x = 1 , y = 2\x7d").toList) =
      some ⟨("k").toList, ("a").toList,
        [((("x").toList), (("1 ").toList)), (((" y").toList), ((" 2").toList))]⟩ ∧
      specStitch (metaToks (("@a\x7bk,x = 1 , y = 2\x7d").toList)) ≠
        [((("x").toList), (("1 ").toList)), (((" y").toList), ((" 2").toList))] := by
  decide

/-- Claim C3, amended: for every chunk that decodes successfully, the stitching
of §4.2 with each middle token first trimmed of leading and trailing
whitespace — first token trimmed is the first field name; each middle token,
trimmed, is split on commas, everything before the last comma (comma-rejoined)
being the pending field's value and the piece after it the next field name;
the last token, trimmed of trailing whitespace only, the last field's value —
produces exactly the fields map of the decoded record. -/
theorem stitch_middle_trimmed (c : List Char) (r : BibTexEntry)
    (h : convert_str_to_BibTexEntry c = some r) :
    specStitchMid (metaToks c) = r.data := by
  rw [metaToks_of_convert h]
  exact specStitchMid_eq_collect (metaToks c)

/-- Claim C3, witness: the amended stitching at the concrete chunk
`@a{k,x = 1 , y = 2}`. -/
theorem stitch_middle_trimmed_witness :
    convert_str_to_BibTexEntry (("@a\x7bk,x = 1 , y = 2\x7d").toList) =
      some ⟨("k").toList, ("a").toList,
        [((("x").toList), (("1 ").toList)), (((" y").toList), ((" 2").toList))]⟩ ∧
      specStitchMid (metaToks (("@a\x7bk,x = 1 , y = 2\x7d").toList)) =
        [((("x").toList), (("1 ").toList)), (((" y").toList), ((" 2").toList))] := by
  have hc : convert_str_to_BibTexEntry (("@a\x7bk,x = 1 , y = 2\x7d").toList) =
      some ⟨("k").toList, ("a").toList,
        [((("x").toList), (("1 ").toList)), (((" y").toList), ((" 2").toList))]⟩ := by
    decide
  refine ⟨hc, ?_⟩
  have := stitch_middle_trimmed (("@a\x7bk,x = 1 , y = 2\x7d").toList)
    ⟨("k").toList, ("a").toList,
      [((("x").toList), (("1 ").toList)), (((" y").toList), ((" 2").toList))]⟩ hc
  simpa using this

/-! ### Claim C4: citekey uniqueness enforcement -/

/-- Claim C4: when the decoded records of an input contain duplicate citekeys,
`read_BibTex_file` fails (its uniqueness assert, checked only after every
chunk has been decoded, fires), and the whole `main` run produces no output
text. -/
theorem duplicate_citekey_aborts (lines : List (List Char)) (entries : List BibTexEntry)
    (hdec : decodeAll (get_BibTex_file_contents lines) = some entries)
    (hdup : ¬ (entries.map BibTexEntry.citekey).Nodup) (pre suf : List Char) :
    read_BibTex_file lines = none ∧ mainOutput lines pre suf = none := by
  have hlen : ¬ entries.length = (entries.map BibTexEntry.citekey).dedup.length := by
    intro he
    apply hdup
    have hsub : List.Sublist (entries.map BibTexEntry.citekey).dedup
        (entries.map BibTexEntry.citekey) :=
      List.dedup_sublist _
    have hlen2 : (entries.map BibTexEntry.citekey).dedup.length =
        (entries.map BibTexEntry.citekey).length := by
      rw [← he, List.length_map]
    have heq := hsub.eq_of_length hlen2
    rw [← heq]
    exact List.nodup_dedup _
  have hread : read_BibTex_file lines = none := by
    simp only [read_BibTex_file, hdec]
    rw [if_neg hlen]
  exact ⟨hread, by simp [mainOutput, hread]⟩

/-- Claim C4, witness: two records sharing the citekey `k`. -/
theorem duplicate_citekey_aborts_witness :
    decodeAll (get_BibTex_file_contents
        [("@a\x7bk,").toList, ("\x7d").toList, ("@b\x7bk,").toList, ("\x7d").toList]) =
      some [⟨("k").toList, ("a").toList, []⟩, ⟨("k").toList, ("b").toList, []⟩] ∧
      ¬ ([⟨("k").toList, ("a").toList, []⟩,
          (⟨("k").toList, ("b").toList, []⟩ : BibTexEntry)].map BibTexEntry.citekey).Nodup ∧
      read_BibTex_file
        [("@a\x7bk,").toList, ("\x7d").toList, ("@b\x7bk,").toList, ("\x7d").toList] = none ∧
      mainOutput
        [("@a\x7bk,").toList, ("\x7d").toList, ("@b\x7bk,").toList, ("\x7d").toList]
        (("P-").toList) (("-S").toList) = none := by
  refine ⟨by decide, by decide, ?_⟩
  exact duplicate_citekey_aborts
    [("@a\x7bk,").toList, ("\x7d").toList, ("@b\x7bk,").toList, ("\x7d").toList]
    [⟨("k").toList, ("a").toList, []⟩, ⟨("k").toList, ("b").toList, []⟩]
    (by decide) (by decide) (("P-").toList) (("-S").toList)

/-! ### Claims C5-C7: the field-insertion transform -/

/-- Claim C5: with prefix `P-` and suffix `-S`, a record without a `note` field
gets `note` set to the quoted string `"P-<key>-S"`, and a record whose `note`
field is the quoted string `"existing text"` gets it set to the quoted string
`"existing text\nP-<key>-S"`. -/
theorem note_create_or_append (e : BibTexEntry) :
    (findVal e.data noteField = none →
      findVal (insert_citekey e (("P-").toList) (("-S").toList)).data noteField =
        some ('\"' :: ((("P-").toList ++ e.citekey ++ ("-S").toList) ++ ['\"']))) ∧
    (findVal e.data noteField = some (("\"existing text\"").toList) →
      findVal (insert_citekey e (("P-").toList) (("-S").toList)).data noteField =
        some ('\"' :: ((("existing text").toList) ++
          '\n' :: ((("P-").toList ++ e.citekey ++ ("-S").toList)) ++ ['\"']))) := by
  constructor
  · intro hn
    have hmem : noteField ∉ e.data.map Prod.fst := (findVal_eq_none_iff _ _).mp hn
    simp only [noteField] at hmem
    simp only [insert_citekey, noteField]
    rw [if_neg hmem]
    exact findVal_dictSet_self _ _ _
  · intro hs
    have hmem : noteField ∈ e.data.map Prod.fst := by
      by_contra hmem
      rw [(findVal_eq_none_iff _ _).mpr hmem] at hs
      cases hs
    simp only [noteField] at hmem hs
    simp only [insert_citekey, noteField]
    rw [if_pos hmem, hs, findVal_dictSet_self]
    have hstrip : pyStripSet ['\"'] ((some (("\"existing text\"").toList)).getD []) =
        ("existing text").toList := by
      decide
    rw [hstrip]

/-- Claim C5, witness: the two concrete cases — a record with no `note` field
and a record whose `note` field is `"existing text"`. -/
theorem note_create_or_append_witness :
    findVal (insert_citekey
        ⟨("k").toList, ("a").toList, [((("title").toList), (("\"T\"").toList))]⟩
        (("P-").toList) (("-S").toList)).data noteField =
      some (("\"P-k-S\"").toList) ∧
    findVal (insert_citekey
        ⟨("k").toList, ("a").toList, [(noteField, ("\"existing text\"").toList)]⟩
        (("P-").toList) (("-S").toList)).data noteField =
      some (("\"existing text\nP-k-S\"").toList) := by
  constructor
  · have h := (note_create_or_append
      ⟨("k").toList, ("a").toList, [((("title").toList), (("\"T\"").toList))]⟩).1
      (by decide)
    rw [h]
    decide
  · have h := (note_create_or_append
      ⟨("k").toList, ("a").toList, [(noteField, ("\"existing text\"").toList)]⟩).2
      (by decide)
    rw [h]
    decide

/-- Claim C6, counterexample: for a stored `note` value `""a""` (two quotes on
each side), the code's `strip('"')` removes *all* leading and trailing quote
characters, producing `"a\nP-k-S"`, not the value predicted by removing
exactly one quote from each side (`""a"` + newline + annotation + `"`). -/
theorem quote_strip_counterexample :
    findVal (insert_citekey
        ⟨("k").toList, ("a").toList, [(noteField, ("\"\"a\"\"").toList)]⟩
        (("P-").toList) (("-S").toList)).data noteField =
      some (("\"a\nP-k-S\"").toList) ∧
      (("\"a\nP-k-S\"").toList : List Char) ≠ ("\"\"a\"\nP-k-S\"").toList := by
  decide

/-- Claim C6, amended: on the append path the transform removes the *maximal*
runs of leading and trailing double-quote characters from the stored value:
for a stored value `"^m ++ core ++ "^n` whose core neither starts nor ends
with a quote, the new value is `"` ++ core ++ newline ++ annotation ++ `"`. -/
theorem quote_strip_amended (e : BibTexEntry) (pre suf : List Char) (m n : Nat)
    (core : List Char) (hne : core ≠ [])
    (hhead : core.head? ≠ some '\"') (hlast : core.getLast? ≠ some '\"')
    (hval : findVal e.data noteField =
      some (List.replicate m '\"' ++ core ++ List.replicate n '\"')) :
    findVal (insert_citekey e pre suf).data noteField =
      some ('\"' :: (core ++ '\n' :: (pre ++ e.citekey ++ suf) ++ ['\"'])) := by
  have hmem : noteField ∈ e.data.map Prod.fst := by
    by_contra hmem
    rw [(findVal_eq_none_iff _ _).mpr hmem] at hval
    cases hval
  have hstrip : pyStripSet ['\"']
      (List.replicate m '\"' ++ core ++ List.replicate n '\"') = core := by
    obtain ⟨c0, core', rfl⟩ : ∃ c0 core', core = c0 :: core' := by
      cases core with
      | nil => exact absurd rfl hne
      | cons c0 core' => exact ⟨c0, core', rfl⟩
    have hc0 : c0 ≠ '\"' := by
      intro he
      exact hhead (by simp [he])
    have hl : pyLStripSet ['\"']
        (List.replicate m '\"' ++ (c0 :: core') ++ List.replicate n '\"') =
          (c0 :: core') ++ List.replicate n '\"' := by
      show List.dropWhile _ _ = _
      rw [List.append_assoc, List.dropWhile_append_of_pos (by
        intro a ha
        rw [List.eq_of_mem_replicate ha]
        decide)]
      rw [List.cons_append, List.dropWhile_cons]
      rw [show (([ '\"' ] : List Char).contains c0) = false from
        contains_false_of_not_mem (by simp [hc0])]
      simp
    rw [pyStripSet, hl]
    obtain ⟨L, b, hLb⟩ : ∃ L b, c0 :: core' = L ++ [b] := by
      rcases List.eq_nil_or_concat (c0 :: core') with he | ⟨L, b, he⟩
      · cases he
      · exact ⟨L, b, by simpa using he⟩
    have hb : b ≠ '\"' := by
      intro he
      apply hlast
      rw [hLb, List.getLast?_concat, he]
    show (List.dropWhile _ _).reverse = _
    rw [hLb, List.reverse_append, List.reverse_append, List.reverse_replicate,
      List.dropWhile_append_of_pos (by
        intro a ha
        rw [List.eq_of_mem_replicate ha]
        decide)]
    have hrb : ([b] : List Char).reverse = [b] := rfl
    rw [show ([b] : List Char).reverse ++ L.reverse = b :: L.reverse by simp,
      List.dropWhile_cons]
    rw [show (([ '\"' ] : List Char).contains b) = false from
      contains_false_of_not_mem (by simp [hb])]
    simp
  simp only [noteField] at hmem hval
  simp only [insert_citekey, noteField]
  rw [if_pos hmem, hval, findVal_dictSet_self, Option.getD_some, hstrip]

/-- Claim C6, witness: the amended quote stripping at the concrete stored value
`""a""` (`m = n = 2`, core `a`). -/
theorem quote_strip_amended_witness :
    findVal (insert_citekey
        ⟨("k").toList, ("a").toList, [(noteField, ("\"\"a\"\"").toList)]⟩
        (("P-").toList) (("-S").toList)).data noteField =
      some ('\"' :: ((("a").toList) ++
        '\n' :: ((("P-").toList ++ ("k").toList ++ ("-S").toList)) ++ ['\"'])) := by
  exact quote_strip_amended
    ⟨("k").toList, ("a").toList, [(noteField, ("\"\"a\"\"").toList)]⟩
    (("P-").toList) (("-S").toList) 2 2 (("a").toList)
    (by decide) (by decide) (by decide) (by decide)

/-- Claim C7: the insertion transform always succeeds, leaves every field other
than `note` bound to its unchanged value, preserves the relative order of the
other fields, appends `note` at the end of the field order when it was absent,
and keeps the whole key order unchanged (hence `note`'s original position)
when it was present. -/
theorem insert_frame_effect (e : BibTexEntry) (pre suf : List Char) :
    (∀ f, f ≠ noteField →
      findVal (insert_citekey e pre suf).data f = findVal e.data f) ∧
    ((insert_citekey e pre suf).data.map Prod.fst =
      if noteField ∈ e.data.map Prod.fst then e.data.map Prod.fst
      else e.data.map Prod.fst ++ [noteField]) := by
  by_cases hm : noteField ∈ e.data.map Prod.fst
  · have hm' := hm
    simp only [noteField] at hm'
    constructor
    · intro f hf
      have hf' : f ≠ (['n', 'o', 't', 'e'] : List Char) := hf
      simp only [insert_citekey, noteField]
      rw [if_pos hm']
      exact findVal_dictSet_ne hf' _ _
    · simp only [insert_citekey, noteField]
      rw [if_pos hm', dictSet_keys]
  · have hm' := hm
    simp only [noteField] at hm'
    constructor
    · intro f hf
      have hf' : f ≠ (['n', 'o', 't', 'e'] : List Char) := hf
      simp only [insert_citekey, noteField]
      rw [if_neg hm']
      exact findVal_dictSet_ne hf' _ _
    · simp only [insert_citekey, noteField]
      rw [if_neg hm', dictSet_keys]

/-- Claim C7, witness: the frame effect at a concrete record without `note`
(for the `title` field and the key order) and one with `note` present. -/
theorem insert_frame_effect_witness :
    findVal (insert_citekey
        ⟨("k").toList, ("a").toList,
          [((("title").toList), (("\"T\"").toList))]⟩
        (("P-").toList) (("-S").toList)).data (("title").toList) =
      findVal [((("title").toList), (("\"T\"").toList))] (("title").toList) ∧
    (insert_citekey
        ⟨("k").toList, ("a").toList,
          [((("title").toList), (("\"T\"").toList))]⟩
        (("P-").toList) (("-S").toList)).data.map Prod.fst =
      if noteField ∈ ([((("title").toList), (("\"T\"").toList))].map Prod.fst)
      then [((("title").toList), (("\"T\"").toList))].map Prod.fst
      else [((("title").toList), (("\"T\"").toList))].map Prod.fst ++ [noteField] := by
  exact ⟨(insert_frame_effect
      ⟨("k").toList, ("a").toList, [((("title").toList), (("\"T\"").toList))]⟩
      (("P-").toList) (("-S").toList)).1 (("title").toList) (by decide),
    (insert_frame_effect
      ⟨("k").toList, ("a").toList, [((("title").toList), (("\"T\"").toList))]⟩
      (("P-").toList) (("-S").toList)).2⟩

/-! ### Claims C8-C9: the record splitter -/

theorem splitGo_filter :
    ∀ (L : List (List Char)) (contents tmp : List (List Char)),
      splitGo L contents tmp = splitGo (L.filter isVisibleLine) contents tmp := by
  intro L
  induction L with
  | nil => intro contents tmp; rfl
  | cons l ls ih =>
    intro contents tmp
    by_cases hcom : ['%'].isPrefixOf (pyStrip l) = true
    · have hvis : isVisibleLine l = false := by
        simp [isVisibleLine, hcom]
      rw [List.filter_cons]
      simp only [hvis, Bool.false_eq_true, if_false]
      simp only [splitGo, hcom, if_true]
      exact ih contents tmp
    · have hcomF : (['%'].isPrefixOf (pyStrip l)) = false := by
        cases hb : ['%'].isPrefixOf (pyStrip l)
        · rfl
        · exact absurd hb hcom
      by_cases hemp : pyStrip l = []
      · have hvis : isVisibleLine l = false := by
          simp [isVisibleLine, hemp]
        rw [List.filter_cons]
        simp only [hvis, Bool.false_eq_true, if_false]
        simp only [splitGo, hemp]
        rw [if_pos trivial]
        exact ih contents tmp
      · have hempF : ((pyStrip l).isEmpty) = false := by
          cases hb : (pyStrip l).isEmpty
          · rfl
          · exact absurd (List.isEmpty_iff.mp hb) hemp
        have hvis : isVisibleLine l = true := by
          simp [isVisibleLine, hcomF, hempF]
        rw [List.filter_cons]
        simp only [hvis, if_true]
        simp only [splitGo, hcomF, Bool.false_eq_true, if_false]
        rw [if_neg hemp, if_neg hemp]
        by_cases hat : ['@'].isPrefixOf (pyStrip l) = true
        · simp only [hat, if_true]
          by_cases htmp : tmp.length > 0
          · rw [if_pos htmp, if_pos htmp]
            exact ih _ _
          · rw [if_neg htmp, if_neg htmp]
            exact ih _ _
        · have hatF : (['@'].isPrefixOf (pyStrip l)) = false := by
            cases hb : ['@'].isPrefixOf (pyStrip l)
            · rfl
            · exact absurd hb hat
          simp only [hatF, Bool.false_eq_true, if_false]
          exact ih _ _

/-- Claim C8: the record splitter ignores comment and blank lines entirely —
two inputs with the same visible lines (in particular, inputs differing only
by inserted `%`-comment or blank lines) produce identical chunk sequences. -/
theorem splitter_invisible_lines (L1 L2 : List (List Char))
    (h : L1.filter isVisibleLine = L2.filter isVisibleLine) :
    get_BibTex_file_contents L1 = get_BibTex_file_contents L2 := by
  show splitGo L1 [] [] = splitGo L2 [] []
  rw [splitGo_filter L1 [] [], splitGo_filter L2 [] [], h]

/-- Claim C8, witness: two records with a comment and a blank line interleaved
versus the same input with those lines removed. -/
theorem splitter_invisible_lines_witness :
    ([("@a\x7bk1,").toList, ("\x7d").toList, ("% note").toList, ("").toList,
        ("@b\x7bk2,").toList, ("\x7d").toList].filter isVisibleLine =
      [("@a\x7bk1,").toList, ("\x7d").toList,
        ("@b\x7bk2,").toList, ("\x7d").toList].filter isVisibleLine) ∧
      get_BibTex_file_contents
        [("@a\x7bk1,").toList, ("\x7d").toList, ("% note").toList, ("").toList,
          ("@b\x7bk2,").toList, ("\x7d").toList] =
        get_BibTex_file_contents
          [("@a\x7bk1,").toList, ("\x7d").toList,
            ("@b\x7bk2,").toList, ("\x7d").toList] := by
  refine ⟨by decide, ?_⟩
  exact splitter_invisible_lines _ _ (by decide)

/-- Claim C9: on an input with no visible (non-comment, non-blank) lines the
splitter returns exactly one chunk, and that chunk is the empty string — the
final flush is unconditional. -/
theorem splitter_empty_flush (lines : List (List Char))
    (h : ∀ l ∈ lines, isVisibleLine l = false) :
    get_BibTex_file_contents lines = [[]] := by
  show splitGo lines [] [] = [[]]
  rw [splitGo_filter lines [] []]
  rw [List.filter_eq_nil_iff.mpr (fun l hl => by simp [h l hl])]
  rfl

/-- Claim C9, witness: a comment-and-blank-only input yields `[""]`. -/
theorem splitter_empty_flush_witness :
    (∀ l ∈ [("% a comment").toList, ("").toList, ("   ").toList],
      isVisibleLine l = false) ∧
      get_BibTex_file_contents
        [("% a comment").toList, ("").toList, ("   ").toList] = [[]] := by
  refine ⟨by decide, ?_⟩
  exact splitter_empty_flush _ (by decide)

/-! ### Claim C10: repeated field names -/

theorem filter_eq_length_one {l : List (List Char)} {a : List Char}
    (hnd : l.Nodup) (ha : a ∈ l) : (l.filter (fun x => x = a)).length = 1 := by
  induction l with
  | nil => cases ha
  | cons b l ih =>
    rw [List.filter_cons]
    rcases List.mem_cons.mp ha with heq | ha'
    · rw [show (decide (b = a)) = true from by simp [heq]]
      simp only [if_true, List.length_cons]
      have hnotin : b ∉ l := (List.nodup_cons.mp hnd).1
      rw [List.filter_eq_nil_iff.mpr (fun x hx => by
        simp only [decide_eq_true_eq]
        intro he
        exact hnotin (heq ▸ he ▸ hx))]
      rfl
    · have hba : b ≠ a := fun he => (List.nodup_cons.mp hnd).1 (he ▸ ha')
      rw [show (decide (b = a)) = false from by simp [hba]]
      simp only [Bool.false_eq_true, if_false]
      exact ih (List.nodup_cons.mp hnd).2 ha'

/-- Claim C10: for a well-formed chunk (type occurring only at the header)
whose field list repeats a field name, decode succeeds without error, and the
resulting fields map binds that name exactly once, to the value of its last
occurrence (earlier values silently overwritten; values compared up to the
whitespace normalisation the decoder applies). -/
theorem repeated_field_last_wins (t k : List Char) (ps : List (List Char × List Char))
    (n : List Char) (hb : GrammarOKbase t k ps)
    (hFM : firstMatch t (chunkTail k ps) = none)
    (hdup : 1 < (ps.map Prod.fst).countP (fun f => f = n)) :
    ∃ r, convert_str_to_BibTexEntry (grammarChunk t k ps) = some r ∧
      ((r.data.map Prod.fst).filter (fun f => f = n)).length = 1 ∧
      ∃ w q, findVal r.data n = some w ∧
        (ps.filter (fun p => p.1 = n)).getLast? = some q ∧ pyStrip w = pyStrip q.2 := by
  have hmemn : n ∈ ps.map Prod.fst := by
    have hpos : 0 < (ps.map Prod.fst).countP (fun f => f = n) :=
      Nat.lt_of_lt_of_le (by decide) (Nat.le_of_lt hdup)
    obtain ⟨x, hx, hxn⟩ := List.countP_pos_iff.mp hpos
    have : x = n := by simpa using hxn
    exact this ▸ hx
  refine ⟨⟨k, t, foldDict [] (normPairs ps)⟩, convert_grammarChunk t k ps hb hFM, ?_, ?_⟩
  · have hnodup : ((foldDict [] (normPairs ps)).map Prod.fst).Nodup :=
      foldDict_keys_nodup (normPairs ps) [] (by simp)
    have hfilter : ps.filter (fun p => p.1 = n) ≠ [] := by
      obtain ⟨p, hp, hpn⟩ := List.mem_map.mp hmemn
      intro he
      have hpmem : p ∈ ps.filter (fun p => p.1 = n) :=
        List.mem_filter.mpr ⟨hp, by simp [hpn]⟩
      rw [he] at hpmem
      cases hpmem
    have hfa := forall₂_filter
      (R := fun a b => a.1 = b.1 ∧ pyStrip a.2 = pyStrip b.2)
      (p := fun p => p.1 = n)
      (fun a b hab => by simp [hab.1]) (normPairs_forall₂ ps)
    have hfn : (normPairs ps).filter (fun p => p.1 = n) ≠ [] := by
      intro he
      rw [he] at hfa
      exact hfilter (List.forall₂_nil_left_iff.mp hfa)
    have hsome : findVal (foldDict [] (normPairs ps)) n ≠ none := by
      rw [findVal_foldDict (normPairs ps) n []]
      cases hl : ((normPairs ps).filter (fun p => p.1 = n)).getLast? with
      | none => exact absurd (List.getLast?_eq_none_iff.mp hl) hfn
      | some q => simp
    have hmem2 : n ∈ (foldDict [] (normPairs ps)).map Prod.fst := by
      by_contra hmem2
      exact hsome ((findVal_eq_none_iff _ _).mpr hmem2)
    exact filter_eq_length_one hnodup hmem2
  · have hfa := forall₂_filter
      (R := fun a b => a.1 = b.1 ∧ pyStrip a.2 = pyStrip b.2)
      (p := fun p => p.1 = n)
      (fun a b hab => by simp [hab.1]) (normPairs_forall₂ ps)
    rcases forall₂_getLast? hfa with ⟨h1, h2⟩ | ⟨a, b, h1, h2, hr⟩
    · obtain ⟨p, hp, hpn⟩ := List.mem_map.mp hmemn
      have hpmem : p ∈ ps.filter (fun p => p.1 = n) :=
        List.mem_filter.mpr ⟨hp, by simp [hpn]⟩
      rw [List.getLast?_eq_none_iff.mp h2] at hpmem
      cases hpmem
    · refine ⟨a.2, b, ?_, h2, hr.2⟩
      show findVal (foldDict [] (normPairs ps)) n = some a.2
      rw [findVal_foldDict (normPairs ps) n [], h1]

/-- Claim C10, witness: the chunk `@z{k,a = 1,a = 2}` decodes with field `a`
bound once, to the value of its second occurrence. -/
theorem repeated_field_last_wins_witness :
    GrammarOKbase (("z").toList) (("k").toList)
        [((("a").toList), (("1").toList)), ((("a").toList), (("2").toList))] ∧
      firstMatch (("z").toList)
        (chunkTail (("k").toList)
          [((("a").toList), (("1").toList)), ((("a").toList), (("2").toList))]) = none ∧
      1 < ([((("a").toList), (("1").toList)),
            ((("a").toList), (("2").toList))].map Prod.fst).countP
          (fun f => f = ("a").toList) ∧
      ∃ r, convert_str_to_BibTexEntry
          (grammarChunk (("z").toList) (("k").toList)
            [((("a").toList), (("1").toList)), ((("a").toList), (("2").toList))]) = some r ∧
        ((r.data.map Prod.fst).filter (fun f => f = ("a").toList)).length = 1 ∧
        ∃ w q, findVal r.data (("a").toList) = some w ∧
          ([((("a").toList), (("1").toList)),
            ((("a").toList), (("2").toList))].filter
              (fun p => p.1 = ("a").toList)).getLast? = some q ∧
          pyStrip w = pyStrip q.2 := by
  refine ⟨?_, by decide, by decide, repeated_field_last_wins _ _ _ _ ?_ (by decide) (by decide)⟩
  · refine ⟨by decide, by decide, by decide, by decide, ?_⟩
    intro p hp
    rcases List.mem_cons.mp hp with rfl | hp
    · exact ⟨by decide, by decide, by decide⟩
    rcases List.mem_singleton.mp hp with rfl
    exact ⟨by decide, by decide, by decide⟩
  · refine ⟨by decide, by decide, by decide, by decide, ?_⟩
    intro p hp
    rcases List.mem_cons.mp hp with rfl | hp
    · exact ⟨by decide, by decide, by decide⟩
    rcases List.mem_singleton.mp hp with rfl
    exact ⟨by decide, by decide, by decide⟩
